import Mathlib

/-!
Verification of the crawl-to-chunk ingestion pipeline of the AI-First
repository against its natural-language specification.

Texts are modelled as `List Char`; Python string operations are embedded
as explicit functions on character lists.  Each definition is a direct
translation of the Python function named in its doc comment.
-/

namespace AIFirst

/-- Python whitespace characters as matched by `\s` and `str.strip()`
(restricted to the ASCII whitespace the repository's texts use). -/
def isPySpace (c : Char) : Bool :=
  c = ' ' || c = '\t' || c = '\n' || c = '\r' || c = '\x0b' || c = '\x0c'

/-- Sentence-terminal punctuation, the character class `[.!?]` of
`text_cleaner.py` line 68. -/
def isDelim (c : Char) : Bool :=
  c = '.' || c = '!' || c = '?'

/-- Python word characters, the `\w` class (ASCII portion). -/
def isWordChar (c : Char) : Bool :=
  c.isAlphanum || c = '_'

/-- Model of Python `str.strip()`: drop leading and trailing whitespace. -/
def pyStrip (l : List Char) : List Char :=
  ((l.dropWhile isPySpace).reverse.dropWhile isPySpace).reverse

/-- Model of Python `str.lower()` on the ASCII range. -/
def pyLower (l : List Char) : List Char :=
  l.map Char.toLower

/-- `listStartsWith pat l` holds when `pat` is an initial segment of `l`
(model of Python `str.startswith`). -/
def listStartsWith (pat l : List Char) : Bool :=
  match pat, l with
  | [], _ => true
  | _ :: _, [] => false
  | p :: ps, c :: cs => p = c && listStartsWith ps cs

/-- `listHasSub pat l` holds when `pat` occurs as a contiguous substring of
`l` (model of Python's `pat in s` membership test on strings). -/
def listHasSub (pat : List Char) : List Char → Bool
  | [] => listStartsWith pat []
  | c :: cs => listStartsWith pat (c :: cs) || listHasSub pat cs

/-- Model of the Python slice `s[-k:]` for a natural number `k`:
for `k = 0` the slice bound `-0` is `0`, so the whole string is returned;
otherwise the last `min k (length s)` characters. -/
def pyTailSlice (s : List Char) (k : Nat) : List Char :=
  if k = 0 then s else s.drop (s.length - k)

/-- Splitting a character list at every sentence-terminal delimiter,
the model of `re.split(r'[.!?]+', text)` in `text_cleaner.py` line 68.
Splitting at every single delimiter (rather than at maximal delimiter
runs) yields extra empty segments, which the subsequent
strip-and-filter step of line 69 discards, so the composed result
agrees with the regex split. -/
def splitDelims : List Char → List (List Char)
  | [] => [[]]
  | c :: rest =>
    if isDelim c then [] :: splitDelims rest
    else
      match splitDelims rest with
      | [] => [[c]]
      | s :: ss => (c :: s) :: ss

/-- The sentence candidates of `text_cleaner.py` lines 68-69:
split on sentence-terminal punctuation, strip each piece, keep the
non-empty ones. -/
def sentencesOf (text : List Char) : List (List Char) :=
  ((splitDelims text).map pyStrip).filter (fun s => s ≠ [])

/-- The loop state of `TextCleaner.chunk_text` in `text_cleaner.py`:
the completed chunks and the current buffer. -/
structure ChunkState where
  chunks : List (List Char)
  current : List Char
deriving DecidableEq, Repr

/-- One iteration of the sentence loop of `text_cleaner.py` lines 74-91:
append the sentence to the buffer if the result stays within
`chunkSize`; otherwise flush the buffer and seed a fresh buffer with the
trailing `overlap` characters of the last completed chunk. -/
def chunkStep (chunkSize overlap : Nat) (st : ChunkState) (sentence : List Char) :
    ChunkState :=
  let test := if st.current ≠ [] then st.current ++ ' ' :: sentence else sentence
  if test.length ≤ chunkSize then { st with current := test }
  else
    let chunks := if st.current ≠ [] then st.chunks ++ [st.current] else st.chunks
    match chunks.getLast? with
    | some last =>
      let overlapText := if overlap ≤ last.length then pyTailSlice last overlap else last
      { chunks := chunks, current := overlapText ++ ' ' :: sentence }
    | none => { chunks := chunks, current := sentence }

/-- `TextCleaner.chunk_text` of `text_cleaner.py` lines 50-97: the
sentence-aware greedy chunker.  Splits the text into sentences, packs
them greedily with overlap seeding, and flushes the trailing buffer. -/
def chunk_text (text : List Char) (chunkSize overlap : Nat) : List (List Char) :=
  let st := (sentencesOf text).foldl (chunkStep chunkSize overlap) ⟨[], []⟩
  if st.current ≠ [] then st.chunks ++ [st.current] else st.chunks

/-! ### The cleaner of `cleaner.py` (the variant the pipeline imports) -/

/-- Model of `re.sub(r'\s+', ' ', text)` in `cleaner.py` line 24: replace
every maximal run of whitespace by a single space. -/
def collapseWs : List Char → List Char
  | [] => []
  | [c] => if isPySpace c then [' '] else [c]
  | c :: d :: rest =>
    if isPySpace c then
      if isPySpace d then collapseWs (d :: rest)
      else ' ' :: collapseWs (d :: rest)
    else c :: collapseWs (d :: rest)

/-- The character whitelist of `cleaner.py` line 27: word characters,
whitespace, and the punctuation set `. , ! ? - ( ) : ;`.  The regex
substitution deleting everything else is a filter by this predicate. -/
def keepC (c : Char) : Bool :=
  isWordChar c || isPySpace c ||
    (c = '.' || c = ',' || c = '!' || c = '?' || c = '-' ||
     c = '(' || c = ')' || c = ':' || c = ';')

/-- Worker of `removeUrls` with an explicit recursion bound (the bound
never runs out when it starts at the list length, since every step
consumes at least one character). -/
def removeUrlsGo : Nat → List Char → List Char
  | 0, l => l
  | _ + 1, [] => []
  | fuel + 1, c :: rest =>
    if listStartsWith "http".toList (c :: rest) &&
        ((c :: rest).drop 4).takeWhile (fun d => !isPySpace d) ≠ [] then
      removeUrlsGo fuel (((c :: rest).drop 4).dropWhile (fun d => !isPySpace d))
    else if listStartsWith "www".toList (c :: rest) &&
        ((c :: rest).drop 3).takeWhile (fun d => !isPySpace d) ≠ [] then
      removeUrlsGo fuel (((c :: rest).drop 3).dropWhile (fun d => !isPySpace d))
    else c :: removeUrlsGo fuel rest

/-- Model of `re.sub(r'http\S+|www\S+', '', text)` in `cleaner.py`
line 30: scanning left to right, a match starts at any position whose
text begins with `http` (or, failing that, `www`) followed by at least
one non-whitespace character, and greedily extends through all
following non-whitespace characters; matches are deleted. -/
def removeUrls (l : List Char) : List Char :=
  removeUrlsGo l.length l

/-- A maximal non-whitespace run (a "word") matches `\S+@\S+` exactly
when it carries an `@` that has at least one character of the word on
each side; the regex match then covers the whole word. -/
def wordHasInteriorAt (w : List Char) : Bool :=
  ((w.drop 1).dropLast).contains '@'

/-- Worker of `removeEmails` with an explicit recursion bound. -/
def removeEmailsGo : Nat → List Char → List Char
  | 0, l => l
  | _ + 1, [] => []
  | fuel + 1, c :: rest =>
    if isPySpace c then c :: removeEmailsGo fuel rest
    else
      let word := (c :: rest).takeWhile (fun d => !isPySpace d)
      let tail := (c :: rest).dropWhile (fun d => !isPySpace d)
      if wordHasInteriorAt word then removeEmailsGo fuel tail
      else word ++ removeEmailsGo fuel tail

/-- Model of `re.sub(r'\S+@\S+', '', text)` in `cleaner.py` line 33:
each maximal non-whitespace run containing an interior `@` is deleted
whole (the greedy `\S+` on both sides of the `@` extends the match to
the run's boundaries); all other characters are kept. -/
def removeEmails (l : List Char) : List Char :=
  removeEmailsGo l.length l

/-- `TextCleaner.clean_text` of `cleaner.py` lines 13-38: collapse
whitespace, strip non-whitelisted characters, remove URL-looking and
email-looking matches, then strip leading/trailing whitespace — in
exactly that order. -/
def clean_text_c (text : List Char) : List Char :=
  pyStrip (removeEmails (removeUrls ((collapseWs text).filter keepC)))

/-- Worker of the fixed-width chunker of `cleaner.py` lines 41-61:
slices of length `chunkSize` taken every `step` characters while the
offset is below the text length; slices that strip to empty are
discarded.  `rest.drop (step - 1)` is the remaining text at the next
offset (Python's `range(0, n, step)` requires `step ≥ 1`; the pipeline
calls this with `step = 450`).  The explicit bound never runs out when
it starts at the list length. -/
def chunkFixedGo (chunkSize step : Nat) : Nat → List Char → List (List Char)
  | 0, _ => []
  | _ + 1, [] => []
  | fuel + 1, c :: rest =>
    let chunk := (c :: rest).take chunkSize
    let next := rest.drop (step - 1)
    if pyStrip chunk ≠ [] then chunk :: chunkFixedGo chunkSize step fuel next
    else chunkFixedGo chunkSize step fuel next

/-- `TextCleaner.chunk_text` of `cleaner.py` lines 41-61 (see the doc
comment of `chunkFixedGo` for the recursion bound): each loop iteration
takes the slice `text[i : i + chunk_size]` and advances `i` by
`step = chunk_size - overlap`; since `step ≥ 1` on every call site, one
bound unit per iteration suffices. -/
def chunk_text_fixed (text : List Char) (chunkSize overlap : Nat) : List (List Char) :=
  chunkFixedGo chunkSize (chunkSize - overlap) text.length text

/-- `TextCleaner.process_content` of `cleaner.py` lines 64-79: clean the
raw content, then chunk the cleaned text — the clean-and-chunk stage
the pipeline applies to every page (with the default
`chunk_size = 500`, `overlap = 50`). -/
def process_content (content : List Char) (chunkSize overlap : Nat) : List (List Char) :=
  chunk_text_fixed (clean_text_c content) chunkSize overlap

/-! ### The indexing pipeline of `pipeline.py` -/

/-- A decimal digit character, as produced by Python `str(int)`. -/
def digitChar (d : Nat) : Char :=
  match d with
  | 0 => '0' | 1 => '1' | 2 => '2' | 3 => '3' | 4 => '4'
  | 5 => '5' | 6 => '6' | 7 => '7' | 8 => '8' | _ => '9'

/-- The digits (most significant first) of a number, empty for 0, with
an explicit recursion bound (`n / 10 < n` for positive `n`, so a bound
starting at `n` never runs out). -/
def natReprGo : Nat → Nat → List Char
  | 0, _ => []
  | _ + 1, 0 => []
  | fuel + 1, n + 1 => natReprGo fuel ((n + 1) / 10) ++ [digitChar ((n + 1) % 10)]

/-- Model of Python `str(n)` for a natural number: decimal notation. -/
def natRepr (n : Nat) : List Char :=
  match n with
  | 0 => ['0']
  | n + 1 => natReprGo (n + 1) (n + 1)

/-- The synthetic chunk identifier `f"doc_{idx}_{chunk_idx}"` built in
`pipeline.py` line 64. -/
def docId (pageIdx chunkIdx : Nat) : List Char :=
  "doc_".toList ++ natRepr pageIdx ++ '_' :: natRepr chunkIdx

/-- A crawled page as consumed by the pipeline: the `url` and `content`
fields of the dictionaries returned by `WebCrawler.crawl`. -/
structure Page where
  url : List Char
  content : List Char
deriving DecidableEq, Repr

/-- A document entry built in `pipeline.py` lines 65-69: the synthetic
id, chunk text, and source url. -/
structure Document where
  id : List Char
  content : List Char
  source : List Char
deriving DecidableEq, Repr

/-- Step 2 of `IndexingPipeline.run` (`pipeline.py` lines 56-72): for
each page, in order, clean and chunk its content with the default
parameters (`chunk_size = 500`, `overlap = 50` of `cleaner.py`), and
tag chunk `chunk_idx` of page `idx` with `doc_{idx}_{chunk_idx}`. -/
def buildDocuments (pages : List Page) : List Document :=
  pages.enum.flatMap fun p =>
    (process_content p.2.content 500 50).enum.map fun ch =>
      ⟨docId p.1 ch.1, ch.2, p.2.url⟩

/-- The run metadata written by `pipeline.py` lines 89-99. -/
structure Manifest where
  timestamp : List Char
  websiteUrl : List Char
  totalPagesCrawled : Nat
  totalChunks : Nat
  dbPath : List Char
deriving DecidableEq, Repr

/-- The observable outcome of one `IndexingPipeline.run` call: the value
returned to the caller (`False` on an empty crawl, `True` on success)
or an exception propagated out of an embedding/storage collaborator. -/
inductive RunOutcome where
  | returnedFalse
  | raised
  | returnedTrue
deriving DecidableEq, Repr

/-- The effects of one `IndexingPipeline.run` call: the outcome, every
`metadata.json` write performed (in order), and the key/vector pairs
handed to the vector store. -/
structure RunResult where
  outcome : RunOutcome
  manifestWrites : List Manifest
  stored : List (List Char × List Int)
deriving Repr

/-- Modelled from the spec: `VectorDatabase.add_documents`, the store
method `pipeline.py` line 81 calls, is absent from the sources (the
`vector_db.py` in the tree is a different module generation whose
methods the pipeline never calls).  Per §4.4 step 4 of the spec, the
store upserts each embedded chunk under its `doc_*` identifier as the
store key. -/
def add_documents (documents : List Document) (embeddings : List (List Int)) :
    List (List Char × List Int) :=
  documents.zip embeddings |>.map fun de => (de.1.id, de.2)

/-- `IndexingPipeline.run` of `pipeline.py` lines 40-101, with the
external collaborators as parameters: `crawlResult` is the page list
returned by the crawl stage, `embed` the embedding collaborator
(`none` models a raised provider exception, which propagates out of
`run`), `storeOk` whether the vector-store upsert succeeds.  The
manifest is written (once) only after all four stages complete; an
empty crawl returns `False` immediately. -/
def pipelineRun (crawlResult : List Page)
    (embed : List (List Char) → Option (List (List Int)))
    (storeOk : Bool) (timestamp websiteUrl dbPath : List Char) : RunResult :=
  if crawlResult = [] then
    { outcome := .returnedFalse, manifestWrites := [], stored := [] }
  else
    let documents := buildDocuments crawlResult
    let allChunks := documents.map (·.content)
    match embed allChunks with
    | none => { outcome := .raised, manifestWrites := [], stored := [] }
    | some embeddings =>
      if storeOk then
        { outcome := .returnedTrue
          manifestWrites :=
            [⟨timestamp, websiteUrl, crawlResult.length, documents.length, dbPath⟩]
          stored := add_documents documents embeddings }
      else { outcome := .raised, manifestWrites := [], stored := [] }

/-! ### The batched embeddings of `embeddings.py` -/

/-- The batches `texts[i : i + batch_size]` for
`i = 0, batch_size, 2*batch_size, ...` of
`EmbeddingsGenerator.generate_embeddings_batch` (`embeddings.py`
line 71-72); `xs.drop (b - 1)` is the remaining input at the next
offset (Python's `range` requires `batch_size ≥ 1`; the default is
100). -/
def pyBatchesGo (b : Nat) : Nat → List α → List (List α)
  | 0, _ => []
  | _ + 1, [] => []
  | fuel + 1, x :: xs => (x :: xs.take (b - 1)) :: pyBatchesGo b fuel (xs.drop (b - 1))

/-- The batch list, with the recursion bound started at the input
length (each step consumes at least the head, so the bound suffices). -/
def pyBatches (b : Nat) (l : List α) : List (List α) :=
  pyBatchesGo b l.length l

/-- Python's `sorted(data, key=lambda x: x.index)` on provider items,
modelled on (index, embedding) pairs: stable insertion keeps an
existing item with an equal or smaller key ahead of the inserted one. -/
def insertByIdx (p : Nat × List Int) : List (Nat × List Int) → List (Nat × List Int)
  | [] => [p]
  | q :: rest => if p.1 < q.1 then p :: q :: rest else q :: insertByIdx p rest

/-- Sorting by the provider-returned `index` field (`embeddings.py`
line 82). -/
def sortByIdx (l : List (Nat × List Int)) : List (Nat × List Int) :=
  l.foldr insertByIdx []

/-- `EmbeddingsGenerator.generate_embeddings_batch` of `embeddings.py`
lines 58-89: process the texts in batches of `batchSize`; for each
batch, call the provider (`create`, returning `(index, embedding)`
items in arbitrary order), sort the items by their returned index, and
append the embeddings in that order. -/
def generate_embeddings_batch
    (create : List (List Char) → List (Nat × List Int))
    (texts : List (List Char)) (batchSize : Nat) : List (List Int) :=
  (pyBatches batchSize texts).flatMap fun batch =>
    (sortByIdx (create batch)).map (·.2)

/-! ### The URL policy of `crawler.py` -/

/-- The fields of `urllib.parse.urlparse` that
`WebCrawler.is_valid_url` reads. -/
structure UrlParts where
  scheme : List Char
  netloc : List Char
deriving DecidableEq, Repr

/-- A valid scheme prefix for `urlparse`: a letter followed by letters,
digits, `+`, `-` or `.`. -/
def validScheme (s : List Char) : Bool :=
  match s with
  | [] => false
  | c :: rest =>
    c.isAlpha && rest.all fun d => d.isAlphanum || d = '+' || d = '-' || d = '.'

/-- Model of `urllib.parse.urlparse` restricted to the `scheme` and
`netloc` fields: the scheme is the lowercased text before the first
`:` when that text is a valid scheme, and the netloc is the text after
a leading `//` up to the next `/`, `?` or `#`.  `urlparse` raises
`ValueError` ("Invalid IPv6 URL") when the netloc contains one of `[`
and `]` without the other; the model returns `none` there, covering
the `except` branch of `is_valid_url`. -/
def pyUrlparse (url : List Char) : Option UrlParts :=
  let pre := url.takeWhile (fun c => c ≠ ':')
  let hasColon := pre.length < url.length
  let (scheme, rest) :=
    if hasColon && validScheme pre then (pyLower pre, url.drop (pre.length + 1))
    else ([], url)
  let netloc :=
    if listStartsWith "//".toList rest then
      (rest.drop 2).takeWhile fun c => c ≠ '/' && c ≠ '?' && c ≠ '#'
    else []
  if (netloc.contains '[' && !netloc.contains ']') ||
      (netloc.contains ']' && !netloc.contains '[') then none
  else some ⟨scheme, netloc⟩

/-- The exclusion substrings of `crawler.py` line 48. -/
def excludePatterns : List (List Char) :=
  [".pdf".toList, ".zip".toList, ".exe".toList,
   "logout".toList, "login".toList, "#".toList]

/-- `WebCrawler.is_valid_url` of `crawler.py` lines 38-54: parse the
URL (any parse error returns `False` through the `except` clause),
require the netloc to equal the crawl's base domain, reject URLs whose
lowercased text contains an exclusion pattern, and finally require an
`http` or `https` scheme. -/
def is_valid_url (baseDomain url : List Char) : Bool :=
  match pyUrlparse url with
  | none => false
  | some p =>
    if p.netloc ≠ baseDomain then false
    else if excludePatterns.any (fun pat => listHasSub pat (pyLower url)) then false
    else p.scheme = "http".toList || p.scheme = "https".toList

/-! ### The crawl loop of `crawler.py` -/

/-- The crawler state of `WebCrawler.crawl` (`crawler.py` lines 92-144)
over an abstract URL type: the `to_visit` queue, the `visited_urls`
set (as a list that receives each URL at most once, so its length is
the set's size), the urls of the pages in `crawled_data`, and the
sequence of URLs handed to `requests.get` (the fetch attempts), in
order. -/
structure CrawlState (α : Type) where
  toVisit : List α
  visited : List α
  crawled : List α
  attempts : List α
deriving Repr

/-- One iteration of the `while` body of `crawler.py` lines 101-141,
with the network abstracted into `fetch`: `fetch u = none` models a
request exception for `u`, and `fetch u = some links` a successful
fetch whose page yields the candidate URLs `links` (already resolved
against the page URL and fragment-stripped, as lines 127-130 do).
A dequeued URL already in the visited set is discarded; otherwise it
is added to the visited set *before* the fetch is attempted, and on
success the page is recorded and the valid, not-yet-visited links are
appended to the queue. -/
def crawlStep [DecidableEq α] (fetch : α → Option (List α)) (valid : α → Bool)
    (st : CrawlState α) : CrawlState α :=
  match st.toVisit with
  | [] => st
  | url :: rest =>
    if url ∈ st.visited then { st with toVisit := rest }
    else
      let visited := st.visited ++ [url]
      match fetch url with
      | none =>
        { toVisit := rest, visited := visited, crawled := st.crawled
          attempts := st.attempts ++ [url] }
      | some links =>
        let newLinks := links.filter fun l => valid l && l ∉ visited
        { toVisit := rest ++ newLinks, visited := visited
          crawled := st.crawled ++ [url], attempts := st.attempts ++ [url] }

/-- The guard of the `while` loop of `crawler.py` line 101:
`to_visit and len(self.visited_urls) < self.max_pages`. -/
def crawlGuard (maxPages : Nat) (st : CrawlState α) : Bool :=
  !st.toVisit.isEmpty && st.visited.length < maxPages

/-- The `while` loop of `crawler.py` lines 101-141, iterated up to
`fuel` times (the loop terminates because each iteration either
shrinks the queue or enlarges the visited set, which the page cap and
the finite link graph bound; every theorem below is conditioned on the
guard being false at the resulting state, i.e. on the loop having
finished). -/
def crawlLoop [DecidableEq α] (fetch : α → Option (List α)) (valid : α → Bool)
    (maxPages : Nat) : Nat → CrawlState α → CrawlState α
  | 0, st => st
  | fuel + 1, st =>
    if crawlGuard maxPages st then
      crawlLoop fetch valid maxPages fuel (crawlStep fetch valid st)
    else st

/-- `WebCrawler.crawl` of `crawler.py` lines 92-144: run the loop from
the state seeded with the base URL. -/
def crawl [DecidableEq α] (fetch : α → Option (List α)) (valid : α → Bool)
    (maxPages : Nat) (base : α) (fuel : Nat) : CrawlState α :=
  crawlLoop fetch valid maxPages fuel ⟨[base], [], [], []⟩

/-- The loop of `crawler.py` has finished: its guard is false. -/
def CrawlDone (maxPages : Nat) (st : CrawlState α) : Prop :=
  st.toVisit = [] ∨ maxPages ≤ st.visited.length

/-- One traversal edge of the synthetic link graph: `v` is a candidate
link of page `u` that passes the URL policy. -/
def CrawlEdge (links : α → List α) (valid : α → Bool) (u v : α) : Prop :=
  v ∈ links u ∧ valid v = true

/-- `v` is reachable from the base URL along policy-passing links. -/
def CrawlReaches (links : α → List α) (valid : α → Bool) (base v : α) : Prop :=
  Relation.ReflTransGen (CrawlEdge links valid) base v

/-! ### Derived notions used to state the chunker properties -/

/-- Joining sentence fragments with single spaces, as the greedy loop of
`text_cleaner.py` line 76 effectively does while no flush occurs. -/
def joinSpaces : List (List Char) → List Char
  | [] => []
  | [s] => s
  | s :: t :: rest => s ++ ' ' :: joinSpaces (t :: rest)

/-- The length of the longest sentence candidate of a text. -/
def maxSentLen (text : List Char) : Nat :=
  ((sentencesOf text).map List.length).foldr max 0

/-- The overlap relation between adjacent chunks: the first
`min overlap (length c)` characters of the next chunk equal the
trailing characters of the previous chunk `c`. -/
def overlapRel (overlap : Nat) (c c' : List Char) : Prop :=
  c'.take (min overlap c.length) = c.drop (c.length - min overlap c.length)

/-- The decimal value of a digit string (left fold), used to invert
`natRepr`. -/
def digitsVal (l : List Char) : Nat :=
  l.foldl (fun acc c => 10 * acc + (c.toNat - 48)) 0

/-- The invariant maintained by the sentence loop for the overlap
property: completed chunks are chained by the overlap relation, and
when a chunk has been completed the buffer is non-empty and stands in
the overlap relation to the last completed chunk. -/
def OverlapInv (overlap : Nat) (st : ChunkState) : Prop :=
  List.Chain' (overlapRel overlap) st.chunks ∧
  ∀ last ∈ st.chunks.getLast?, st.current ≠ [] ∧ overlapRel overlap last st.current

/-- The invariant maintained by the sentence loop for the length bound
`B`: every completed chunk and the buffer have length at most `B`. -/
def BoundInv (B : Nat) (st : ChunkState) : Prop :=
  (∀ c ∈ st.chunks, c.length ≤ B) ∧ st.current.length ≤ B

/-- The weight of a segment list: total character count plus one per
segment.  Splitting a text at delimiters yields weight `length + 1`,
and stripping, filtering or joining with single spaces only lowers
it. -/
def segWeight (L : List (List Char)) : Nat :=
  (L.map List.length).sum + L.length

/-- The invariant of the crawl loop on a synthetic link graph whose
fetches all succeed (`fetch = fun u => some (links u)`), with `R` the
set of URLs reachable from the base: the visited list never repeats,
fetch attempts and recorded pages coincide with the visited list,
visited and queued URLs are reachable, every policy-passing link out of
a visited page is visited or queued, and the base is visited or
queued. -/
def CrawlInvS (links : α → List α) (valid : α → Bool) (base : α) (R : Finset α)
    (st : CrawlState α) : Prop :=
  st.visited.Nodup ∧
  st.attempts = st.visited ∧
  st.crawled = st.visited ∧
  (∀ v ∈ st.visited, v ∈ R) ∧
  (∀ v ∈ st.toVisit, v ∈ R) ∧
  (∀ u ∈ st.visited, ∀ v, CrawlEdge links valid u v →
    v ∈ st.visited ∨ v ∈ st.toVisit) ∧
  (base ∈ st.visited ∨ base ∈ st.toVisit)

/-- A termination measure for the crawl loop: queued URLs plus a budget
of `maxOutDegree + 1` for every reachable URL not yet visited.  Every
guarded iteration strictly decreases it. -/
def crawlMeasure (links : α → List α) (R : Finset α) (st : CrawlState α) : Nat :=
  st.toVisit.length +
    ((R.sup fun u => (links u).length) + 1) * (R.card - st.visited.length)

/-! ## Theorems -/

/-- Helper: flat-mapping over the enumeration of a list, using only the
elements, is flat-mapping over the list. -/
lemma flatMap_enumFrom_snd (l : List β) (g : β → List γ) :
    ∀ n, ((List.enumFrom n l).flatMap fun p => g p.2) = l.flatMap g := by
  induction l with
  | nil => intro n; rfl
  | cons x xs ih => intro n; simp [List.enumFrom, ih]

lemma flatMap_enum_snd (l : List β) (g : β → List γ) :
    (l.enum.flatMap fun p => g p.2) = l.flatMap g := by
  simpa [List.enum] using flatMap_enumFrom_snd l g 0

/-- C4: with root domain `example.com`, the URL eligibility predicate
accepts `http://example.com/page` and rejects `http://other.com/page`
(foreign domain), `http://example.com/logout` (excluded pattern),
`http://example.com/file.pdf` (excluded extension); any URL the parser
fails on is rejected (fails closed) rather than raising to the
caller. -/
theorem url_policy_cases :
    is_valid_url "example.com".toList "http://example.com/page".toList = true ∧
    is_valid_url "example.com".toList "http://other.com/page".toList = false ∧
    is_valid_url "example.com".toList "http://example.com/logout".toList = false ∧
    is_valid_url "example.com".toList "http://example.com/file.pdf".toList = false ∧
    ∀ url : List Char, pyUrlparse url = none →
      is_valid_url "example.com".toList url = false := by
  refine ⟨by decide, by decide, by decide, by decide, ?_⟩
  intro url h
  simp [is_valid_url, h]

/-- Witness for C4: the unparsable `http://[bad` (unbalanced IPv6
bracket) is rejected. -/
theorem url_policy_cases_witness :
    is_valid_url "example.com".toList "http://[bad".toList = false :=
  url_policy_cases.2.2.2.2 _ (by decide)

/-- C5: an empty crawl makes the run return `False` with no manifest
written and nothing stored; at most one manifest is ever written, it is
written exactly when the run returns `True` (all four stages
completed), and it carries the timestamp, target, page count, chunk
count and store path. -/
theorem pipeline_manifest_once :
    ∀ (pages : List Page) (embed : List (List Char) → Option (List (List Int)))
      (storeOk : Bool) (ts url db : List Char),
      (pages = [] →
        pipelineRun pages embed storeOk ts url db =
          ⟨.returnedFalse, [], []⟩) ∧
      (pipelineRun pages embed storeOk ts url db).manifestWrites.length ≤ 1 ∧
      ((pipelineRun pages embed storeOk ts url db).manifestWrites ≠ [] ↔
        (pipelineRun pages embed storeOk ts url db).outcome = .returnedTrue) ∧
      ((pipelineRun pages embed storeOk ts url db).outcome = .returnedTrue →
        (pipelineRun pages embed storeOk ts url db).manifestWrites =
          [⟨ts, url, pages.length, (buildDocuments pages).length, db⟩]) := by
  intro pages embed storeOk ts url db
  by_cases hp : pages = []
  · subst hp
    refine ⟨fun _ => rfl, ?_, ?_, ?_⟩ <;> simp [pipelineRun]
  · cases he : embed ((buildDocuments pages).map (·.content)) with
    | none =>
      refine ⟨fun h => absurd h hp, ?_, ?_, ?_⟩ <;>
        simp [pipelineRun, hp, he]
    | some embs =>
      cases storeOk with
      | false =>
        refine ⟨fun h => absurd h hp, ?_, ?_, ?_⟩ <;>
          simp [pipelineRun, hp, he]
      | true =>
        refine ⟨fun h => absurd h hp, ?_, ?_, ?_⟩ <;>
          simp [pipelineRun, hp, he]

/-- Witness for C5: a run over an empty crawl returns `False` and
writes nothing. -/
theorem pipeline_manifest_once_witness :
    pipelineRun [] (fun _ => some []) true [] [] [] =
      ⟨.returnedFalse, [], []⟩ :=
  (pipeline_manifest_once [] (fun _ => some []) true [] [] []).1 rfl

/-- Counterexample to C2: on the page text `ab. cd.` the pipeline's
clean-and-chunk stage produces the single chunk `ab. cd.` (the whole
text, a fixed-width slice), while the sentence-aware chunker of
`text_cleaner.py` produces `ab cd` — the pipeline stage is not the
sentence-aware algorithm. -/
theorem pipeline_chunking_differs :
    (buildDocuments [⟨"u".toList, "ab. cd.".toList⟩]).map (·.content) ≠
      chunk_text "ab. cd.".toList 500 50 := by decide

/-- C2 as amended: the chunking performed by the pipeline's
clean-and-chunk stage is fixed-width character slicing — for every page
sequence, the chunk texts the pipeline builds are exactly the chunks of
`cleaner.py`'s fixed-width `chunk_text` applied to `cleaner.py`'s
`clean_text`, page by page, with `chunk_size = 500`, `overlap = 50`. -/
theorem pipeline_chunking_is_fixed_width :
    ∀ pages : List Page,
      (buildDocuments pages).map (·.content) =
        pages.flatMap fun p => chunk_text_fixed (clean_text_c p.content) 500 50 := by
  intro pages
  unfold buildDocuments process_content
  rw [List.map_flatMap]
  have h : ∀ p : Nat × Page,
      ((chunk_text_fixed (clean_text_c p.2.content) 500 50).enum.map
        (fun ch => (⟨docId p.1 ch.1, ch.2, p.2.url⟩ : Document))).map (·.content) =
      chunk_text_fixed (clean_text_c p.2.content) 500 50 := by
    intro p
    rw [List.map_map]
    exact List.enum_map_snd _
  simp only [h]
  exact flatMap_enum_snd pages
    (fun pg => chunk_text_fixed (clean_text_c pg.content) 500 50)

/-- Helper: the URL-removal scan only deletes characters. -/
lemma removeUrlsGo_sublist : ∀ (fuel : Nat) (l : List Char),
    (removeUrlsGo fuel l).Sublist l := by
  intro fuel
  induction fuel with
  | zero => intro l; exact List.Sublist.refl l
  | succ fuel ih =>
    intro l
    match l with
    | [] => exact List.Sublist.refl []
    | c :: rest =>
      rw [removeUrlsGo]
      split
      · exact ((ih _).trans (List.dropWhile_sublist _)).trans (List.drop_sublist 4 _)
      · split
        · exact ((ih _).trans (List.dropWhile_sublist _)).trans (List.drop_sublist 3 _)
        · exact (ih rest).cons₂ c

/-- Helper: on a text with no `@` character, the email-removal scan is
the identity. -/
lemma removeEmailsGo_eq_self : ∀ (fuel : Nat) (l : List Char),
    (∀ c ∈ l, c ≠ '@') → removeEmailsGo fuel l = l := by
  intro fuel
  induction fuel with
  | zero => intro l _; rfl
  | succ fuel ih =>
    intro l hat
    match l with
    | [] => rfl
    | c :: rest =>
      rw [removeEmailsGo]
      by_cases hsp : isPySpace c = true
      · simp only [hsp, if_true]
        rw [ih rest fun d hd => hat d (List.mem_cons_of_mem c hd)]
      · simp only [hsp, if_false]
        have hword : wordHasInteriorAt ((c :: rest).takeWhile fun d => !isPySpace d)
            = false := by
          unfold wordHasInteriorAt
          by_contra hcon
          rw [Bool.not_eq_false] at hcon
          replace hcon : '@' ∈ (List.drop 1
              (List.takeWhile (fun d => !isPySpace d) (c :: rest))).dropLast := by
            simpa using hcon
          exact hat '@'
            ((List.takeWhile_sublist _).subset
              ((List.drop_sublist 1 _).subset
                ((List.dropLast_sublist _).subset hcon))) rfl
        simp only [hword, if_false]
        rw [ih _ fun d hd => hat d ((List.dropWhile_sublist _).subset hd)]
        exact List.takeWhile_append_dropWhile _ _

/-- C8 (the code at the failing input, and the cause): on
`contact user@example.com now` the cleaner keeps the de-`@`'d email
text `userexample.com` instead of removing the email-looking
substring; in general the email-removal step of `cleaner.py` line 33
is a no-op, because the whitelist strip of line 27 has already deleted
every `@`, so `clean_text_c` equals the same pipeline without the
email step. -/
theorem clean_email_removal_dead :
    clean_text_c "contact user@example.com now".toList =
      "contact userexample.com now".toList ∧
    ∀ text : List Char,
      clean_text_c text = pyStrip (removeUrls ((collapseWs text).filter keepC)) := by
  constructor
  · decide
  · intro text
    unfold clean_text_c removeEmails
    congr 1
    apply removeEmailsGo_eq_self
    intro c hc heq
    have h1 : c ∈ (collapseWs text).filter keepC :=
      (removeUrlsGo_sublist _ _).subset hc
    have h2 := List.of_mem_filter h1
    subst heq
    exact absurd h2 (by decide)

/-- Helper: decimal digits are not underscores. -/
lemma digitChar_ne_underscore (d : Nat) : digitChar d ≠ '_' := by
  unfold digitChar
  split <;> decide

/-- Helper: `natReprGo` emits only digit characters, never `_`. -/
lemma natReprGo_no_underscore : ∀ (fuel n : Nat), '_' ∉ natReprGo fuel n := by
  intro fuel
  induction fuel with
  | zero => intro n; simp [natReprGo]
  | succ fuel ih =>
    intro n
    match n with
    | 0 => simp [natReprGo]
    | n + 1 =>
      rw [natReprGo]
      intro hmem
      rcases List.mem_append.mp hmem with h | h
      · exact ih _ h
      · rcases List.mem_singleton.mp h with h
        exact digitChar_ne_underscore _ h.symm

lemma natRepr_no_underscore (n : Nat) : '_' ∉ natRepr n := by
  match n with
  | 0 => decide
  | n + 1 => exact natReprGo_no_underscore (n + 1) (n + 1)

lemma digitsVal_append_digit (l : List Char) (c : Char) :
    digitsVal (l ++ [c]) = 10 * digitsVal l + (c.toNat - 48) := by
  simp [digitsVal, List.foldl_append]

lemma digitChar_val (d : Nat) (h : d < 10) : (digitChar d).toNat - 48 = d := by
  interval_cases d <;> decide

/-- Helper: `digitsVal` inverts `natReprGo` whenever the recursion
bound is sufficient. -/
lemma digitsVal_natReprGo : ∀ (fuel n : Nat), n ≤ fuel →
    digitsVal (natReprGo fuel n) = n := by
  intro fuel
  induction fuel with
  | zero =>
    intro n hn
    interval_cases n
    rfl
  | succ fuel ih =>
    intro n hn
    match n with
    | 0 => rfl
    | n + 1 =>
      rw [natReprGo, digitsVal_append_digit,
        digitChar_val _ (Nat.mod_lt _ (by omega)),
        ih ((n + 1) / 10) (by omega)]
      omega

/-- Helper: Python's decimal rendering of naturals is injective. -/
lemma natRepr_inj {n m : Nat} (h : natRepr n = natRepr m) : n = m := by
  have key : ∀ k : Nat, digitsVal (natRepr k) = k := by
    intro k
    match k with
    | 0 => rfl
    | k + 1 => exact digitsVal_natReprGo (k + 1) (k + 1) (le_refl _)
  have := key n
  rw [h, key m] at this
  omega

/-- Helper: a list equation `a ++ '_' :: b = a' ++ '_' :: b'` with
underscore-free `a, a'` determines both halves. -/
lemma underscore_split : ∀ (a a' b b' : List Char), '_' ∉ a → '_' ∉ a' →
    a ++ '_' :: b = a' ++ '_' :: b' → a = a' ∧ b = b' := by
  intro a
  induction a with
  | nil =>
    intro a' b b' _ ha'
    match a' with
    | [] => intro h; exact ⟨rfl, by simpa using h⟩
    | c :: a'' =>
      intro h
      have : '_' = c := (List.cons.injEq _ _ _ _).mp h |>.1
      exact absurd (this ▸ List.mem_cons_self c a'') ha'
  | cons c a ih =>
    intro a' b b' ha ha'
    match a' with
    | [] =>
      intro h
      have : c = '_' := (List.cons.injEq _ _ _ _).mp h |>.1
      exact absurd (this ▸ List.mem_cons_self '_' a) (this ▸ ha)
    | c' :: a'' =>
      intro h
      obtain ⟨hc, htail⟩ := (List.cons.injEq _ _ _ _).mp h
      obtain ⟨h1, h2⟩ := ih a'' b b' (fun hm => ha (List.mem_cons_of_mem _ hm))
        (fun hm => ha' (List.mem_cons_of_mem _ hm)) htail
      exact ⟨by rw [hc, h1], h2⟩

/-- Helper: the synthetic identifier determines the page and chunk
indices. -/
lemma docId_inj {i j i' j' : Nat} (h : docId i j = docId i' j') :
    i = i' ∧ j = j' := by
  unfold docId at h
  rw [List.append_assoc, List.append_assoc] at h
  have h2 := List.append_cancel_left h
  obtain ⟨ha, hb⟩ := underscore_split _ _ _ _
    (natRepr_no_underscore i) (natRepr_no_underscore i') h2
  exact ⟨natRepr_inj ha, natRepr_inj hb⟩

/-- C9: the `doc_{pageIndex}_{chunkIndex}` identifiers the pipeline
assigns are pairwise distinct within a run, and the vector-store upsert
keys each embedded chunk under exactly that identifier (so matching
ids overwrite on re-runs). -/
theorem doc_ids_unique_and_store_keyed :
    (∀ pages : List Page, ((buildDocuments pages).map (·.id)).Nodup) ∧
    (∀ (docs : List Document) (embs : List (List Int)),
      embs.length = docs.length →
        (add_documents docs embs).map (·.1) = docs.map (·.id)) := by
  constructor
  · intro pages
    unfold buildDocuments
    rw [List.map_flatMap]
    have hinner : ∀ p : Nat × Page,
        ((process_content p.2.content 500 50).enum.map
          (fun ch => (⟨docId p.1 ch.1, ch.2, p.2.url⟩ : Document))).map (·.id) =
        ((process_content p.2.content 500 50).enum.map Prod.fst).map (docId p.1) := by
      intro p
      rw [List.map_map, List.map_map]
      rfl
    simp only [hinner]
    rw [List.nodup_flatMap]
    constructor
    · intro p _
      rw [List.enum_map_fst]
      exact (List.nodup_range _).map fun j j' hj => (docId_inj hj).2
    · have hfst : List.Pairwise (fun p q : Nat × Page => p.1 ≠ q.1) pages.enum := by
        have h := List.nodup_range pages.length
        rw [← List.enum_map_fst pages] at h
        exact List.pairwise_map.mp h
      refine hfst.imp ?_
      intro p q hpq x hxp hxq
      obtain ⟨j, _, hj⟩ := List.mem_map.mp hxp
      obtain ⟨j', _, hj'⟩ := List.mem_map.mp hxq
      exact hpq (docId_inj (hj.trans hj'.symm)).1
  · intro docs embs hlen
    unfold add_documents
    rw [List.map_map]
    have : ((docs.zip embs).map fun de => de.1.id) =
        ((docs.zip embs).map Prod.fst).map (·.id) := by
      rw [List.map_map]; rfl
    rw [show ((·.1) ∘ fun de : Document × List Int => (de.1.id, de.2)) =
        fun de : Document × List Int => de.1.id from rfl, this,
      List.map_fst_zip docs embs (by omega)]

/-- Witness for C9: a concrete store upsert keyed by the document id. -/
theorem doc_ids_unique_and_store_keyed_witness :
    (add_documents [⟨"doc_0_0".toList, "t".toList, "u".toList⟩] [[3]]).map (·.1) =
      ["doc_0_0".toList] :=
  doc_ids_unique_and_store_keyed.2 [⟨"doc_0_0".toList, "t".toList, "u".toList⟩]
    [[3]] rfl

/-- Helper: inserting by index permutes to consing. -/
lemma insertByIdx_perm (p : Nat × List Int) :
    ∀ l : List (Nat × List Int), (insertByIdx p l).Perm (p :: l) := by
  intro l
  induction l with
  | nil => exact List.Perm.refl _
  | cons q rest ih =>
    rw [insertByIdx]
    split
    · exact List.Perm.refl _
    · exact (ih.cons q).trans (List.Perm.swap p q rest)

/-- Helper: inserting by index preserves sortedness by index. -/
lemma insertByIdx_pairwise (p : Nat × List Int) :
    ∀ l : List (Nat × List Int),
      List.Pairwise (fun a b : Nat × List Int => a.1 ≤ b.1) l →
      List.Pairwise (fun a b : Nat × List Int => a.1 ≤ b.1) (insertByIdx p l) := by
  intro l
  induction l with
  | nil => intro _; exact List.pairwise_singleton _ _
  | cons q rest ih =>
    intro hl
    rw [insertByIdx]
    rcases List.pairwise_cons.mp hl with ⟨hq, hrest⟩
    split
    · rename_i hlt
      refine List.pairwise_cons.mpr ⟨?_, hl⟩
      intro r hr
      rcases List.mem_cons.mp hr with h | h
      · exact le_of_lt (h ▸ hlt)
      · exact le_trans (le_of_lt hlt) (hq r h)
    · rename_i hge
      refine List.pairwise_cons.mpr ⟨?_, ih hrest⟩
      intro r hr
      rcases List.mem_cons.mp (((insertByIdx_perm p rest).mem_iff).mp hr) with h | h
      · subst h; omega
      · exact hq r h

/-- Helper: the modelled Python `sorted` permutes its input and sorts it
by index. -/
lemma sortByIdx_perm (l : List (Nat × List Int)) : (sortByIdx l).Perm l := by
  induction l with
  | nil => exact List.Perm.refl _
  | cons q rest ih =>
    exact (insertByIdx_perm q (sortByIdx rest)).trans (ih.cons q)

lemma sortByIdx_pairwise (l : List (Nat × List Int)) :
    List.Pairwise (fun a b : Nat × List Int => a.1 ≤ b.1) (sortByIdx l) := by
  induction l with
  | nil => exact List.Pairwise.nil
  | cons q rest ih => exact insertByIdx_pairwise q (sortByIdx rest) ih

/-- Helper: the enumeration of a list is strictly sorted on indices. -/
lemma pairwise_fst_lt_enumFrom (l : List α) :
    ∀ n, List.Pairwise (fun a b : Nat × α => a.1 < b.1) (List.enumFrom n l) := by
  induction l with
  | nil => intro n; exact List.Pairwise.nil
  | cons x xs ih =>
    intro n
    rw [List.enumFrom]
    refine List.pairwise_cons.mpr ⟨?_, ih (n + 1)⟩
    intro p hp
    have := List.mem_enumFrom (x := p.2) (i := p.1) (j := n + 1) (by simpa using hp)
    omega

/-- Helper: a permutation of an enumeration that is sorted by index is
that enumeration. -/
lemma sorted_perm_enum_eq (s : List (Nat × List Int)) (m : List (List Int))
    (hperm : s.Perm m.enum)
    (hs : List.Pairwise (fun a b : Nat × List Int => a.1 ≤ b.1) s) :
    s = m.enum := by
  have hanti : IsAntisymm (Nat × List Int) (fun a b => a.1 < b.1) :=
    ⟨fun a b h1 h2 => absurd (lt_trans h1 h2) (lt_irrefl _)⟩
  have henum_lt := pairwise_fst_lt_enumFrom m 0
  rw [show List.enumFrom 0 m = m.enum from rfl] at henum_lt
  have hnodup : (s.map Prod.fst).Nodup := by
    refine ((hperm.map Prod.fst).nodup_iff).mpr ?_
    rw [List.enum_map_fst]
    exact List.nodup_range _
  have hne : List.Pairwise (fun a b : Nat × List Int => a.1 ≠ b.1) s :=
    List.pairwise_map.mp hnodup
  have hs_lt : List.Pairwise (fun a b : Nat × List Int => a.1 < b.1) s :=
    (hs.and hne).imp fun h => lt_of_le_of_ne h.1 h.2
  exact @List.eq_of_perm_of_sorted _ _ hanti _ _ hperm hs_lt henum_lt

/-- Helper: concatenating the Python batches restores the input. -/
lemma pyBatchesGo_flatMap (b : Nat) (g : List Char → List Int) :
    ∀ (fuel : Nat) (l : List (List Char)), l.length ≤ fuel →
      ((pyBatchesGo b fuel l).flatMap fun batch => batch.map g) = l.map g := by
  intro fuel
  induction fuel with
  | zero =>
    intro l hl
    rw [List.length_eq_zero.mp (Nat.le_zero.mp hl)]
    rfl
  | succ fuel ih =>
    intro l hl
    match l with
    | [] => rfl
    | x :: xs =>
      rw [pyBatchesGo, List.flatMap_cons,
        ih (xs.drop (b - 1)) (by simp at hl ⊢; omega)]
      rw [← List.map_append]
      congr 1
      rw [List.cons_append, List.take_append_drop]

/-- C10: when the provider returns, for each batch, exactly one
`(index, embedding)` item per input text — in arbitrary order, with
`index i` carrying the embedding of the batch's `i`-th text — the
batched generator returns exactly one embedding per input text, in
input order, because it re-sorts every batch by the returned index. -/
theorem generate_embeddings_batch_order :
    ∀ (create : List (List Char) → List (Nat × List Int))
      (E : List Char → List Int) (texts : List (List Char)) (batchSize : Nat),
      0 < batchSize →
      (∀ b : List (List Char), (create b).Perm ((b.map E).enum)) →
      generate_embeddings_batch create texts batchSize = texts.map E := by
  intro create E texts batchSize _ hcreate
  unfold generate_embeddings_batch pyBatches
  have hbatch : ∀ b : List (List Char),
      (sortByIdx (create b)).map (·.2) = b.map E := by
    intro b
    rw [sorted_perm_enum_eq (sortByIdx (create b)) (b.map E)
      ((sortByIdx_perm _).trans (hcreate b)) (sortByIdx_pairwise _)]
    exact List.enum_map_snd _
  simp only [hbatch]
  exact pyBatchesGo_flatMap batchSize E texts.length texts (le_refl _)

/-- Witness for C10: a provider that returns each batch's items in
reversed order still yields the embeddings in input order. -/
theorem generate_embeddings_batch_order_witness :
    generate_embeddings_batch
      (fun b => ((b.map fun t => [(t.length : Int)]).enum).reverse)
      ["a".toList, "bc".toList] 2 = [[(1 : Int)], [(2 : Int)]] := by
  have h := generate_embeddings_batch_order
    (fun b => ((b.map fun t => [(t.length : Int)]).enum).reverse)
    (fun t => [(t.length : Int)]) ["a".toList, "bc".toList] 2 (by decide)
    (fun b => List.reverse_perm _)
  exact h.trans (by decide)

/-- Helper: a property preserved by every step of a fold holds at the
end. -/
lemma foldl_inv {σ β : Type} {P : σ → Prop} {step : σ → β → σ} :
    ∀ (ss : List β) (st : σ), P st →
      (∀ s ∈ ss, ∀ st', P st' → P (step st' s)) → P (List.foldl step st ss) := by
  intro ss
  induction ss with
  | nil => intro st h _; exact h
  | cons s rest ih =>
    intro st h hstep
    exact ih _ (hstep s (List.mem_cons_self s rest) st h)
      fun s' hs' => hstep s' (List.mem_cons_of_mem s hs')

/-- Helper: every sentence candidate is non-empty. -/
lemma sentencesOf_ne_nil {text : List Char} {s : List Char}
    (h : s ∈ sentencesOf text) : s ≠ [] := by
  unfold sentencesOf at h
  exact of_decide_eq_true (List.mem_filter.mp h).2

/-- Helper: the overlap seed taken from a flushed chunk has at most
`overlap` characters when `overlap` is positive. -/
lemma seed_length_le {last : List Char} {overlap : Nat} (hov : 0 < overlap) :
    (if overlap ≤ last.length then pyTailSlice last overlap else last).length ≤
      overlap := by
  split
  · rename_i hle
    unfold pyTailSlice
    rw [if_neg (by omega)]
    simp only [List.length_drop]
    omega
  · rename_i hgt
    omega

/-- Helper: the overlap relation between a chunk and a buffer survives
appending more text to the buffer. -/
lemma overlapRel_extend {overlap : Nat} {c cur : List Char} (x : List Char)
    (h : overlapRel overlap c cur) : overlapRel overlap c (cur ++ x) := by
  unfold overlapRel at h ⊢
  have hlen : min overlap c.length ≤ cur.length := by
    have := congrArg List.length h
    simp only [List.length_take, List.length_drop] at this
    omega
  rw [List.take_append_of_le_length hlen]
  exact h

/-- Helper: the freshly seeded buffer stands in the overlap relation to
the chunk it was seeded from. -/
lemma overlapRel_seed {overlap : Nat} (c sentence : List Char) :
    overlapRel overlap c
      ((if overlap ≤ c.length then pyTailSlice c overlap else c) ++
        ' ' :: sentence) := by
  apply overlapRel_extend
  unfold overlapRel pyTailSlice
  rcases Nat.eq_zero_or_pos overlap with hz | hp
  · subst hz
    simp
  · by_cases hle : overlap ≤ c.length
    · rw [if_pos hle, if_neg (by omega)]
      have hmin : min overlap c.length = overlap := by omega
      rw [hmin, List.take_of_length_le (by simp [List.length_drop]; omega)]
    · rw [if_neg hle]
      have hmin : min overlap c.length = c.length := by omega
      rw [hmin, List.take_of_length_le (by omega)]
      simp

/-- Helper: the loop step when the extended buffer still fits. -/
lemma chunkStep_of_fits {chunkSize overlap : Nat} {st : ChunkState} {s : List Char}
    (h : (if st.current ≠ [] then st.current ++ ' ' :: s else s).length ≤ chunkSize) :
    chunkStep chunkSize overlap st s =
      { st with current := if st.current ≠ [] then st.current ++ ' ' :: s else s } := by
  rw [chunkStep]
  simp only [h, if_true]

/-- Helper: the loop step when a non-empty buffer overflows: the buffer
is flushed and the new buffer is seeded from the flushed chunk. -/
lemma chunkStep_of_flush {chunkSize overlap : Nat} {st : ChunkState} {s : List Char}
    (hcur : st.current ≠ [])
    (h : ¬(st.current ++ ' ' :: s).length ≤ chunkSize) :
    chunkStep chunkSize overlap st s =
      { chunks := st.chunks ++ [st.current]
        current :=
          (if overlap ≤ st.current.length then pyTailSlice st.current overlap
           else st.current) ++ ' ' :: s } := by
  rw [chunkStep]
  simp only [ne_eq, hcur, not_false_eq_true, ite_true, h, ite_false,
    List.getLast?_concat]

/-- Helper: the loop step on an empty buffer with no completed chunks
yet starts the buffer at the sentence. -/
lemma chunkStep_of_empty {chunkSize overlap : Nat} {st : ChunkState} {s : List Char}
    (hcur : st.current = []) (hchunks : st.chunks = []) :
    chunkStep chunkSize overlap st s = { chunks := [], current := s } := by
  rw [chunkStep]
  simp only [hcur, hchunks, ne_eq, not_true_eq_false, ite_false]
  split
  · rfl
  · rfl

/-- Helper: the loop step on an empty buffer with completed chunks and
an oversized sentence seeds from the last completed chunk. -/
lemma chunkStep_of_empty_flush {chunkSize overlap : Nat} {st : ChunkState}
    {s last : List Char} (hcur : st.current = [])
    (hl : st.chunks.getLast? = some last) (h : ¬s.length ≤ chunkSize) :
    chunkStep chunkSize overlap st s =
      { chunks := st.chunks
        current :=
          (if overlap ≤ last.length then pyTailSlice last overlap else last) ++
            ' ' :: s } := by
  rw [chunkStep]
  simp only [hcur, hl, h, if_false, ne_eq, not_true_eq_false, ite_false,
    not_false_eq_true, ite_true]

/-- Helper: one loop iteration preserves the overlap invariant. -/
lemma chunkStep_overlapInv {chunkSize overlap : Nat} {st : ChunkState}
    {sentence : List Char} (hinv : OverlapInv overlap st) :
    OverlapInv overlap (chunkStep chunkSize overlap st sentence) := by
  obtain ⟨hchain, hlast⟩ := hinv
  by_cases hcur : st.current = []
  · have hchunks : st.chunks = [] := by
      cases h : st.chunks.getLast? with
      | none => exact List.getLast?_eq_none_iff.mp h
      | some last => exact absurd hcur (hlast last (by rw [h]; rfl)).1
    rw [chunkStep_of_empty hcur hchunks]
    exact ⟨List.chain'_nil, fun last hl => by simp at hl⟩
  · by_cases hfits : (st.current ++ ' ' :: sentence).length ≤ chunkSize
    · rw [chunkStep_of_fits (by simpa [hcur] using hfits)]
      refine ⟨hchain, ?_⟩
      intro last hl
      refine ⟨by simp [hcur], ?_⟩
      have h2 := (hlast last hl).2
      simpa [hcur] using overlapRel_extend (' ' :: sentence) h2
    · rw [chunkStep_of_flush hcur hfits]
      refine ⟨?_, ?_⟩
      · rw [List.chain'_append]
        refine ⟨hchain, List.chain'_singleton _, ?_⟩
        intro x hx y hy
        rw [List.head?_cons, Option.mem_some_iff] at hy
        exact hy ▸ (hlast x hx).2
      · intro last hl
        rw [List.getLast?_concat, Option.mem_some_iff] at hl
        subst hl
        exact ⟨by simp, overlapRel_seed _ _⟩

/-- C7: adjacent chunks of the sentence-aware chunker always stand in
the overlap relation — the first `min overlap (length c)` characters of
each chunk after the first equal the trailing characters of its
predecessor `c`.  (This holds for every adjacent pair, including across
the oversized-sentence case the claim excepts.) -/
theorem chunk_text_overlap_chain :
    ∀ (text : List Char) (chunkSize overlap : Nat),
      List.Chain' (overlapRel overlap) (chunk_text text chunkSize overlap) := by
  intro text chunkSize overlap
  have hinv : OverlapInv overlap
      ((sentencesOf text).foldl (chunkStep chunkSize overlap) ⟨[], []⟩) := by
    refine foldl_inv (P := OverlapInv overlap) (sentencesOf text) ⟨[], []⟩
      ⟨List.chain'_nil, ?_⟩ ?_
    · intro last hl
      simp at hl
    · intro s _ st' hst'
      exact chunkStep_overlapInv hst'
  obtain ⟨hchain, hlast⟩ := hinv
  have hct : chunk_text text chunkSize overlap =
      if ((sentencesOf text).foldl (chunkStep chunkSize overlap) ⟨[], []⟩).current ≠ []
      then ((sentencesOf text).foldl (chunkStep chunkSize overlap) ⟨[], []⟩).chunks ++
        [((sentencesOf text).foldl (chunkStep chunkSize overlap) ⟨[], []⟩).current]
      else ((sentencesOf text).foldl (chunkStep chunkSize overlap) ⟨[], []⟩).chunks :=
    rfl
  rw [hct]
  split
  · rw [List.chain'_append]
    refine ⟨hchain, List.chain'_singleton _, ?_⟩
    intro x hx y hy
    rw [List.head?_cons, Option.mem_some_iff] at hy
    exact hy ▸ (hlast x hx).2
  · exact hchain

/-- Helper: every member of a list of naturals is at most its right fold
by `max`. -/
lemma le_foldr_max : ∀ (ns : List Nat), ∀ n ∈ ns, n ≤ ns.foldr max 0 := by
  intro ns
  induction ns with
  | nil => intro n hn; simp at hn
  | cons m rest ih =>
    intro n hn
    rcases List.mem_cons.mp hn with h | h
    · exact h ▸ le_max_left _ _
    · exact le_trans (ih n h) (le_max_right _ _)

/-- Helper: every sentence candidate is at most the maximal sentence
length. -/
lemma le_maxSentLen {text s : List Char} (h : s ∈ sentencesOf text) :
    s.length ≤ maxSentLen text :=
  le_foldr_max _ _ (List.mem_map_of_mem List.length h)

/-- Helper: one loop iteration preserves the length-bound invariant
when the overlap is positive and the sentence is at most `L` long. -/
lemma chunkStep_boundInv {chunkSize overlap L : Nat} {st : ChunkState}
    {sentence : List Char} (hov : 0 < overlap) (hsl : sentence.length ≤ L)
    (hinv : BoundInv (max chunkSize (overlap + 1 + L)) st) :
    BoundInv (max chunkSize (overlap + 1 + L))
      (chunkStep chunkSize overlap st sentence) := by
  obtain ⟨hchunks, hcur⟩ := hinv
  by_cases hfits :
      (if st.current ≠ [] then st.current ++ ' ' :: sentence else sentence).length ≤
        chunkSize
  · rw [chunkStep_of_fits hfits]
    exact ⟨hchunks, le_trans hfits (le_max_left _ _)⟩
  · by_cases hemp : st.current = []
    · rw [hemp] at hfits
      simp only [ne_eq, not_true_eq_false, ite_false] at hfits
      cases hl : st.chunks.getLast? with
      | none =>
        rw [chunkStep_of_empty hemp (List.getLast?_eq_none_iff.mp hl)]
        refine ⟨fun c hc => absurd hc (List.not_mem_nil c), ?_⟩
        exact le_trans hsl (le_trans (by omega) (le_max_right _ _))
      | some last =>
        rw [chunkStep_of_empty_flush hemp hl hfits]
        refine ⟨hchunks, ?_⟩
        simp only [List.length_append, List.length_cons]
        have := @seed_length_le last overlap hov
        have := le_max_right chunkSize (overlap + 1 + L)
        omega
    · have hfits' : ¬(st.current ++ ' ' :: sentence).length ≤ chunkSize := by
        simpa [hemp] using hfits
      rw [chunkStep_of_flush hemp hfits']
      refine ⟨?_, ?_⟩
      · intro c hc
        rcases List.mem_append.mp hc with h | h
        · exact hchunks c h
        · rw [List.mem_singleton.mp h]
          exact hcur
      · simp only [List.length_append, List.length_cons]
        have := @seed_length_le st.current overlap hov
        have := le_max_right chunkSize (overlap + 1 + L)
        omega

/-- Counterexample to C1: with `maxSize = 10 > overlap = 5 ≥ 0`, the
chunk `defgh ijklmnop` of the text `abcdefgh. ijklmnop. q.` has length
14 > 10, yet it is not a sentence of the text at all (every sentence
has length at most 8 ≤ 10) — it is an overlap seed plus one in-bounds
sentence, so the claimed single-oversized-sentence exception does not
cover it. -/
theorem chunk_text_oversize_not_single_sentence :
    "defgh ijklmnop".toList ∈ chunk_text "abcdefgh. ijklmnop. q.".toList 10 5 ∧
    10 < "defgh ijklmnop".toList.length ∧
    "defgh ijklmnop".toList ∉ sentencesOf "abcdefgh. ijklmnop. q.".toList ∧
    ∀ s ∈ sentencesOf "abcdefgh. ijklmnop. q.".toList, s.length ≤ 10 := by decide

/-- C1 as amended: for positive overlap, every chunk of the
sentence-aware chunker has length at most
`max maxSize (overlap + 1 + L)` where `L` is the longest sentence
length — chunks can exceed `maxSize` not only as single oversized
sentences but also as overlap-seed-plus-sentence buffers, by at most
`overlap + 1` beyond the sentence length.  (For `overlap = 0` no bound
holds at all: Python's `chunks[-1][-0:]` is the whole previous chunk,
so the seed is the entire flushed chunk.) -/
theorem chunk_text_length_bound :
    ∀ (text : List Char) (chunkSize overlap : Nat), 0 < overlap →
      ∀ c ∈ chunk_text text chunkSize overlap,
        c.length ≤ max chunkSize (overlap + 1 + maxSentLen text) := by
  intro text chunkSize overlap hov
  have hinv : BoundInv (max chunkSize (overlap + 1 + maxSentLen text))
      ((sentencesOf text).foldl (chunkStep chunkSize overlap) ⟨[], []⟩) := by
    refine foldl_inv (P := BoundInv (max chunkSize (overlap + 1 + maxSentLen text)))
      (sentencesOf text) ⟨[], []⟩ ⟨fun c hc => absurd hc (List.not_mem_nil c), by simp⟩
      ?_
    intro s hs st' hst'
    exact chunkStep_boundInv hov (le_maxSentLen hs) hst'
  obtain ⟨hchunks, hcur⟩ := hinv
  intro c hc
  have hct : chunk_text text chunkSize overlap =
      if ((sentencesOf text).foldl (chunkStep chunkSize overlap) ⟨[], []⟩).current ≠ []
      then ((sentencesOf text).foldl (chunkStep chunkSize overlap) ⟨[], []⟩).chunks ++
        [((sentencesOf text).foldl (chunkStep chunkSize overlap) ⟨[], []⟩).current]
      else ((sentencesOf text).foldl (chunkStep chunkSize overlap) ⟨[], []⟩).chunks :=
    rfl
  rw [hct] at hc
  split at hc
  · rcases List.mem_append.mp hc with h | h
    · exact hchunks c h
    · exact List.mem_singleton.mp h ▸ hcur
  · exact hchunks c hc

/-- Witness for C1: the oversized chunk of the counterexample text
respects the amended bound `max 10 (5 + 1 + 8) = 14`. -/
theorem chunk_text_length_bound_witness :
    "defgh ijklmnop".toList.length ≤
      max 10 (5 + 1 + maxSentLen "abcdefgh. ijklmnop. q.".toList) :=
  chunk_text_length_bound "abcdefgh. ijklmnop. q.".toList 10 5 (by decide)
    "defgh ijklmnop".toList (by decide)

/-- Helper: splitting never yields an empty segment list. -/
lemma splitDelims_ne_nil : ∀ l : List Char, splitDelims l ≠ [] := by
  intro l
  match l with
  | [] => simp [splitDelims]
  | c :: rest =>
    rw [splitDelims]
    split
    · simp
    · cases h : splitDelims rest with
      | nil => simp
      | cons s ss => simp

/-- Helper: splitting a text at delimiters has weight `length + 1`:
each delimiter separates two segments, each other character sits in one
segment. -/
lemma segWeight_splitDelims : ∀ l : List Char,
    segWeight (splitDelims l) = l.length + 1 := by
  intro l
  induction l with
  | nil => rfl
  | cons c rest ih =>
    rw [splitDelims]
    split
    · simp only [segWeight, List.map_cons, List.sum_cons, List.length_cons] at ih ⊢
      simp only [List.length_nil, List.length_cons]
      omega
    · cases h : splitDelims rest with
      | nil => exact absurd h (splitDelims_ne_nil rest)
      | cons s ss =>
        rw [h] at ih
        simp only [segWeight, List.map_cons, List.sum_cons, List.length_cons] at ih ⊢
        omega

/-- Helper: stripping whitespace never lengthens a segment. -/
lemma pyStrip_length_le (s : List Char) : (pyStrip s).length ≤ s.length := by
  unfold pyStrip
  calc ((s.dropWhile isPySpace).reverse.dropWhile isPySpace).reverse.length
      = ((s.dropWhile isPySpace).reverse.dropWhile isPySpace).length := by
        rw [List.length_reverse]
    _ ≤ (s.dropWhile isPySpace).reverse.length :=
        (List.dropWhile_sublist _).length_le
    _ = (s.dropWhile isPySpace).length := by rw [List.length_reverse]
    _ ≤ s.length := (List.dropWhile_sublist _).length_le

/-- Helper: stripping each segment only lowers the weight. -/
lemma segWeight_map_pyStrip (L : List (List Char)) :
    segWeight (L.map pyStrip) ≤ segWeight L := by
  unfold segWeight
  rw [List.length_map]
  have : ((L.map pyStrip).map List.length).sum ≤ (L.map List.length).sum := by
    induction L with
    | nil => simp
    | cons s rest ih =>
      simp only [List.map_cons, List.sum_cons]
      exact Nat.add_le_add (pyStrip_length_le s) ih
  omega

/-- Helper: filtering only lowers the weight. -/
lemma segWeight_filter (p : List Char → Bool) (L : List (List Char)) :
    segWeight (L.filter p) ≤ segWeight L := by
  unfold segWeight
  have h := List.filter_sublist (p := p) L
  exact Nat.add_le_add
    ((h.map List.length).sum_le_sum fun a _ => Nat.zero_le a) h.length_le

/-- Helper: joining `k` segments with single spaces costs their total
length plus `k - 1` separators. -/
lemma joinSpaces_length : ∀ L : List (List Char), L ≠ [] →
    (joinSpaces L).length + 1 = (L.map List.length).sum + L.length := by
  intro L
  match L with
  | [] => intro h; exact absurd rfl h
  | [s] => intro _; simp [joinSpaces]
  | s :: t :: rest =>
    intro _
    have ih := joinSpaces_length (t :: rest) (by simp)
    rw [joinSpaces]
    simp only [List.map_cons, List.sum_cons, List.length_cons,
      List.length_append] at ih ⊢
    omega

/-- Helper: the space-joined sentence candidates are never longer than
the text they were split from. -/
lemma joinSpaces_sentencesOf_le (text : List Char) (h : sentencesOf text ≠ []) :
    (joinSpaces (sentencesOf text)).length ≤ text.length := by
  have h1 := joinSpaces_length (sentencesOf text) h
  have h2 : segWeight (sentencesOf text) ≤ segWeight (splitDelims text) :=
    le_trans (segWeight_filter _ _) (segWeight_map_pyStrip _)
  have h3 := segWeight_splitDelims text
  unfold segWeight at h2 h3
  omega

/-- Helper: joining is the head segment followed by space-prefixed
tails. -/
lemma joinSpaces_cons (s : List Char) : ∀ rest : List (List Char),
    joinSpaces (s :: rest) = s ++ rest.flatMap (fun t => ' ' :: t) := by
  intro rest
  induction rest generalizing s with
  | nil => simp [joinSpaces]
  | cons t rest ih => rw [joinSpaces, ih t]; simp

/-- Helper: as long as every extended buffer fits within `chunkSize`,
the loop accumulates all sentences into the buffer and flushes
nothing. -/
lemma foldl_chunkStep_small {chunkSize overlap : Nat} :
    ∀ (ss : List (List Char)) (cur : List Char), cur ≠ [] →
      (cur ++ ss.flatMap (fun t => ' ' :: t)).length ≤ chunkSize →
      ss.foldl (chunkStep chunkSize overlap) ⟨[], cur⟩ =
        ⟨[], cur ++ ss.flatMap (fun t => ' ' :: t)⟩ := by
  intro ss
  induction ss with
  | nil => intro cur _ _; simp
  | cons s rest ih =>
    intro cur hcur hlen
    rw [List.foldl_cons]
    have hfit : ((⟨[], cur⟩ : ChunkState).current ++ ' ' :: s).length ≤ chunkSize := by
      simp only [List.flatMap_cons, List.length_append, List.length_cons,
        List.length_flatMap] at hlen ⊢
      omega
    have hstep : chunkStep chunkSize overlap ⟨[], cur⟩ s =
        ⟨[], cur ++ ' ' :: s⟩ := by
      rw [chunkStep_of_fits (by simpa [hcur] using hfit)]
      simp [hcur]
    rw [hstep, ih (cur ++ ' ' :: s) (by simp) (by simpa [List.append_assoc] using hlen)]
    simp

/-- Helper: the buffer is non-empty after any iteration on a non-empty
sentence. -/
lemma chunkStep_current_ne {chunkSize overlap : Nat} {st : ChunkState}
    {sentence : List Char} (hs : sentence ≠ []) :
    (chunkStep chunkSize overlap st sentence).current ≠ [] := by
  by_cases hfits :
      (if st.current ≠ [] then st.current ++ ' ' :: sentence else sentence).length ≤
        chunkSize
  · rw [chunkStep_of_fits hfits]
    by_cases hcur : st.current = [] <;> simp [hcur, hs]
  · by_cases hcur : st.current = []
    · rw [hcur] at hfits
      simp only [ne_eq, not_true_eq_false, ite_false] at hfits
      cases hl : st.chunks.getLast? with
      | none =>
        rw [chunkStep_of_empty hcur (List.getLast?_eq_none_iff.mp hl)]
        exact hs
      | some last =>
        rw [chunkStep_of_empty_flush hcur hl hfits]
        simp
    · rw [chunkStep_of_flush hcur (by simpa [hcur] using hfits)]
      simp

/-- Counterexample to C6: the non-empty cleaned input `.` (a possible
`clean_text` output, shorter than `maxSize`) chunks to the empty
sequence, and the non-empty input `Hi. Yo.` (shorter than `maxSize`)
does not chunk to a single chunk equal to the input — the chunker
drops sentence-terminal punctuation. -/
theorem chunk_text_edge_counterexample :
    chunk_text ".".toList 500 50 = [] ∧ ".".toList ≠ [] ∧
    chunk_text "Hi. Yo.".toList 500 50 ≠ ["Hi. Yo.".toList] := by decide

/-- C6 as amended: empty input chunks to the empty sequence; the chunk
sequence is non-empty iff the input has a non-empty sentence split
(not: iff the input is non-empty — inputs of only delimiters and
whitespace chunk to nothing); and a text shorter than `maxSize` with a
non-empty sentence split yields exactly one chunk, equal to its
sentence candidates joined by single spaces (not: equal to the input —
delimiters and surrounding whitespace are dropped). -/
theorem chunk_text_edge_cases :
    (∀ chunkSize overlap : Nat, chunk_text [] chunkSize overlap = []) ∧
    (∀ (text : List Char) (chunkSize overlap : Nat),
      chunk_text text chunkSize overlap ≠ [] ↔ sentencesOf text ≠ []) ∧
    (∀ (text : List Char) (chunkSize overlap : Nat),
      sentencesOf text ≠ [] → text.length < chunkSize →
        chunk_text text chunkSize overlap = [joinSpaces (sentencesOf text)]) := by
  have hempty : ∀ (text : List Char) (chunkSize overlap : Nat),
      sentencesOf text = [] → chunk_text text chunkSize overlap = [] := by
    intro text chunkSize overlap h
    unfold chunk_text
    rw [h]
    rfl
  have hfinal : ∀ (text : List Char) (chunkSize overlap : Nat),
      chunk_text text chunkSize overlap =
        if ((sentencesOf text).foldl (chunkStep chunkSize overlap) ⟨[], []⟩).current ≠ []
        then ((sentencesOf text).foldl (chunkStep chunkSize overlap) ⟨[], []⟩).chunks ++
          [((sentencesOf text).foldl (chunkStep chunkSize overlap) ⟨[], []⟩).current]
        else ((sentencesOf text).foldl (chunkStep chunkSize overlap) ⟨[], []⟩).chunks :=
    fun _ _ _ => rfl
  refine ⟨fun chunkSize overlap => hempty [] chunkSize overlap rfl, ?_, ?_⟩
  · intro text chunkSize overlap
    constructor
    · intro hne hs
      exact hne (hempty text chunkSize overlap hs)
    · intro hs
      cases hsent : sentencesOf text with
      | nil => exact absurd hsent hs
      | cons s rest =>
        have hcur : ((sentencesOf text).foldl
            (chunkStep chunkSize overlap) ⟨[], []⟩).current ≠ [] := by
          rw [hsent, List.foldl_cons]
          refine foldl_inv (P := fun st : ChunkState => st.current ≠ []) rest _
            (chunkStep_current_ne
              (sentencesOf_ne_nil (hsent ▸ List.mem_cons_self s rest))) ?_
          intro s' hs' st' _
          exact chunkStep_current_ne
            (sentencesOf_ne_nil (hsent ▸ List.mem_cons_of_mem s hs'))
        rw [hfinal, if_pos hcur]
        simp
  · intro text chunkSize overlap hs hlen
    cases hsent : sentencesOf text with
    | nil => exact absurd hsent hs
    | cons s rest =>
      have hsne : s ≠ [] := sentencesOf_ne_nil (hsent ▸ List.mem_cons_self s rest)
      have hjoin := joinSpaces_cons s rest
      have hjlen : (joinSpaces (s :: rest)).length ≤ chunkSize := by
        have := joinSpaces_sentencesOf_le text hs
        rw [hsent] at this
        omega
      have hstep1 : chunkStep chunkSize overlap ⟨[], []⟩ s = ⟨[], s⟩ :=
        chunkStep_of_empty rfl rfl
      have hfold : (sentencesOf text).foldl (chunkStep chunkSize overlap) ⟨[], []⟩ =
          ⟨[], s ++ rest.flatMap (fun t => ' ' :: t)⟩ := by
        rw [hsent, List.foldl_cons, hstep1]
        exact foldl_chunkStep_small rest s hsne (by rw [← hjoin]; exact hjlen)
      rw [hfinal, hfold]
      have hne : s ++ rest.flatMap (fun t => ' ' :: t) ≠ [] := by
        cases s with
        | nil => exact absurd rfl hsne
        | cons a as => simp
      rw [if_pos (by simpa using hne), hjoin]
      simp

/-- Witness for C6: `Hi. Yo.` is shorter than 500, has sentence
candidates `Hi` and `Yo`, and chunks to exactly their space-join. -/
theorem chunk_text_edge_cases_witness :
    chunk_text "Hi. Yo.".toList 500 50 =
      [joinSpaces (sentencesOf "Hi. Yo.".toList)] :=
  chunk_text_edge_cases.2.2 "Hi. Yo.".toList 500 50 (by decide) (by decide)

/-- Helper: the loop guard is false exactly at the terminal states. -/
lemma crawlGuard_false_iff {α : Type} (maxPages : Nat) (st : CrawlState α) :
    crawlGuard maxPages st = false ↔ CrawlDone maxPages st := by
  unfold crawlGuard CrawlDone
  cases h : st.toVisit with
  | nil => simp [h]
  | cons x xs => simp [h, Nat.not_lt]

/-- Helper: a true loop guard means the cap is not yet reached. -/
lemma crawlGuard_lt {α : Type} {maxPages : Nat} {st : CrawlState α}
    (h : crawlGuard maxPages st = true) : st.visited.length < maxPages := by
  unfold crawlGuard at h
  rcases Bool.and_eq_true_iff.mp h with ⟨_, h2⟩
  exact of_decide_eq_true h2

/-- Helper: a true loop guard means the queue is non-empty. -/
lemma crawlGuard_toVisit_ne {α : Type} {maxPages : Nat} {st : CrawlState α}
    (h : crawlGuard maxPages st = true) : st.toVisit ≠ [] := by
  unfold crawlGuard at h
  rcases Bool.and_eq_true_iff.mp h with ⟨h1, _⟩
  intro hnil
  rw [hnil] at h1
  simp at h1

/-- Helper: one iteration, for an arbitrary fetch outcome, keeps the
fetch-attempt list equal to the visited list and free of repeats. -/
lemma crawlStep_attempts {α : Type} [DecidableEq α] (g : α → Option (List α))
    (valid : α → Bool) (st : CrawlState α)
    (h : st.attempts = st.visited ∧ st.visited.Nodup) :
    (crawlStep g valid st).attempts = (crawlStep g valid st).visited ∧
      (crawlStep g valid st).visited.Nodup := by
  obtain ⟨ha, hn⟩ := h
  unfold crawlStep
  split
  · exact ⟨ha, hn⟩
  · rename_i url rest heq
    split
    · exact ⟨ha, hn⟩
    · rename_i hnotmem
      split
      · exact ⟨by rw [ha], by
          simp [List.nodup_append, hn, List.disjoint_singleton, hnotmem]⟩
      · exact ⟨by rw [ha], by
          simp [List.nodup_append, hn, List.disjoint_singleton, hnotmem]⟩

/-- Helper: the attempts/visited coincidence is a loop invariant. -/
lemma crawlLoop_attempts {α : Type} [DecidableEq α] (g : α → Option (List α))
    (valid : α → Bool) (maxPages : Nat) :
    ∀ (fuel : Nat) (st : CrawlState α),
      st.attempts = st.visited ∧ st.visited.Nodup →
      (crawlLoop g valid maxPages fuel st).attempts =
        (crawlLoop g valid maxPages fuel st).visited ∧
      (crawlLoop g valid maxPages fuel st).visited.Nodup := by
  intro fuel
  induction fuel with
  | zero => intro st h; exact h
  | succ fuel ih =>
    intro st h
    rw [crawlLoop]
    split
    · exact ih _ (crawlStep_attempts g valid st h)
    · exact h

/-- Helper: one iteration grows the visited list by at most one. -/
lemma crawlStep_visited_le {α : Type} [DecidableEq α] (g : α → Option (List α))
    (valid : α → Bool) (st : CrawlState α) :
    (crawlStep g valid st).visited.length ≤ st.visited.length + 1 := by
  unfold crawlStep
  split
  · omega
  · split
    · simp
    · split <;> simp

/-- Helper: the loop never exceeds the page cap. -/
lemma crawlLoop_visited_le {α : Type} [DecidableEq α] (g : α → Option (List α))
    (valid : α → Bool) (maxPages : Nat) :
    ∀ (fuel : Nat) (st : CrawlState α), st.visited.length ≤ maxPages →
      (crawlLoop g valid maxPages fuel st).visited.length ≤ maxPages := by
  intro fuel
  induction fuel with
  | zero => intro st h; exact h
  | succ fuel ih =>
    intro st h
    rw [crawlLoop]
    split
    · rename_i hguard
      refine ih _ ?_
      have h1 := crawlGuard_lt hguard
      have h2 := crawlStep_visited_le g valid st
      omega
    · exact h

/-- Helper: one iteration with all fetches succeeding preserves the
crawl invariant. -/
lemma crawlStep_invS {α : Type} [DecidableEq α] {links : α → List α}
    {valid : α → Bool} {base : α} {R : Finset α} {st : CrawlState α}
    (hR : ∀ v, v ∈ R ↔ CrawlReaches links valid base v)
    (h : CrawlInvS links valid base R st) :
    CrawlInvS links valid base R
      (crawlStep (fun u => some (links u)) valid st) := by
  obtain ⟨hnd, hat, hcr, hvR, htR, hedge, hbase⟩ := h
  unfold crawlStep
  split
  · exact ⟨hnd, hat, hcr, hvR, htR, hedge, hbase⟩
  · rename_i url rest heq
    split
    · rename_i hmem
      refine ⟨hnd, hat, hcr, hvR, ?_, ?_, ?_⟩
      · intro v hv
        exact htR v (heq ▸ List.mem_cons_of_mem url hv)
      · intro u hu v hv
        rcases hedge u hu v hv with h | h
        · exact Or.inl h
        · rw [heq] at h
          rcases List.mem_cons.mp h with h | h
          · exact Or.inl (h ▸ hmem)
          · exact Or.inr h
      · rcases hbase with h | h
        · exact Or.inl h
        · rw [heq] at h
          rcases List.mem_cons.mp h with h | h
          · exact Or.inl (h ▸ hmem)
          · exact Or.inr h
    · rename_i hnmem
      have hurlR : url ∈ R := htR url (heq ▸ List.mem_cons_self url rest)
      dsimp only
      refine ⟨?_, ?_, ?_, ?_, ?_, ?_, ?_⟩
      · simp [List.nodup_append, hnd, List.disjoint_singleton, hnmem]
      · simp only [hat]
      · simp only [hcr]
      · intro v hv
        rcases List.mem_append.mp hv with h | h
        · exact hvR v h
        · exact (List.mem_singleton.mp h) ▸ hurlR
      · intro v hv
        rcases List.mem_append.mp hv with h | h
        · exact htR v (heq ▸ List.mem_cons_of_mem url h)
        · have h2 := List.mem_filter.mp h
          rcases Bool.and_eq_true_iff.mp h2.2 with ⟨hval, _⟩
          have hedgev : CrawlEdge links valid url v := ⟨h2.1, hval⟩
          rw [hR]
          exact Relation.ReflTransGen.tail ((hR url).mp hurlR) hedgev
      · intro u hu v hv
        rcases List.mem_append.mp hu with h | h
        · rcases hedge u h v hv with h2 | h2
          · exact Or.inl (List.mem_append_left _ h2)
          · rw [heq] at h2
            rcases List.mem_cons.mp h2 with h2 | h2
            · exact Or.inl (List.mem_append_right _
                (h2 ▸ List.mem_singleton_self url))
            · exact Or.inr (List.mem_append_left _ h2)
        · have hu2 := List.mem_singleton.mp h
          rw [hu2] at hv
          by_cases hvv : v ∈ st.visited ++ [url]
          · exact Or.inl hvv
          · refine Or.inr (List.mem_append_right _ ?_)
            refine List.mem_filter.mpr ⟨hv.1, ?_⟩
            rw [Bool.and_eq_true_iff]
            exact ⟨hv.2, decide_eq_true hvv⟩
      · rcases hbase with h | h
        · exact Or.inl (List.mem_append_left _ h)
        · rw [heq] at h
          rcases List.mem_cons.mp h with h | h
          · exact Or.inl (List.mem_append_right _
              (h ▸ List.mem_singleton_self url))
          · exact Or.inr (List.mem_append_left _ h)

/-- Helper: the crawl invariant is a loop invariant. -/
lemma crawlLoop_invS {α : Type} [DecidableEq α] {links : α → List α}
    {valid : α → Bool} {base : α} {R : Finset α} {maxPages : Nat}
    (hR : ∀ v, v ∈ R ↔ CrawlReaches links valid base v) :
    ∀ (fuel : Nat) (st : CrawlState α), CrawlInvS links valid base R st →
      CrawlInvS links valid base R
        (crawlLoop (fun u => some (links u)) valid maxPages fuel st) := by
  intro fuel
  induction fuel with
  | zero => intro st h; exact h
  | succ fuel ih =>
    intro st h
    rw [crawlLoop]
    split
    · exact ih _ (crawlStep_invS hR h)
    · exact h

/-- Helper: when the loop drains its queue, every reachable URL has
been visited. -/
lemma crawl_drain_complete {α : Type} {links : α → List α} {valid : α → Bool}
    {base : α} {R : Finset α} {st : CrawlState α}
    (hR : ∀ v, v ∈ R ↔ CrawlReaches links valid base v)
    (hinv : CrawlInvS links valid base R st) (hdrain : st.toVisit = []) :
    ∀ v ∈ R, v ∈ st.visited := by
  obtain ⟨_, _, _, _, _, hedge, hbase⟩ := hinv
  have hbase' : base ∈ st.visited := by
    rcases hbase with h | h
    · exact h
    · rw [hdrain] at h
      exact absurd h (List.not_mem_nil base)
  intro v hv
  have hr : CrawlReaches links valid base v := (hR v).mp hv
  clear hv
  unfold CrawlReaches at hr
  induction hr with
  | refl => exact hbase'
  | tail hsteps hedgev ih =>
    rcases hedge _ ih _ hedgev with h | h
    · exact h
    · rw [hdrain] at h
      exact absurd h (List.not_mem_nil _)

/-- Helper: a repeat-free list whose members lie in a finite set is no
longer than the set's size. -/
lemma nodup_length_le_card {α : Type} [DecidableEq α] {l : List α} {S : Finset α}
    (hnd : l.Nodup) (hsub : ∀ x ∈ l, x ∈ S) : l.length ≤ S.card := by
  rw [← List.toFinset_card_of_nodup hnd]
  exact Finset.card_le_card fun x hx => hsub x (List.mem_toFinset.mp hx)

/-- Helper: every guarded iteration strictly decreases the crawl
measure. -/
lemma crawlStep_measure_lt {α : Type} [DecidableEq α] {links : α → List α}
    {valid : α → Bool} {base : α} {R : Finset α} {maxPages : Nat}
    {st : CrawlState α} (hinv : CrawlInvS links valid base R st)
    (hguard : crawlGuard maxPages st = true) :
    crawlMeasure links R (crawlStep (fun u => some (links u)) valid st) <
      crawlMeasure links R st := by
  obtain ⟨hnd, _, _, hvR, htR, _, _⟩ := hinv
  have hne := crawlGuard_toVisit_ne hguard
  cases heq : st.toVisit with
  | nil => exact absurd heq hne
  | cons url rest =>
    unfold crawlStep crawlMeasure
    rw [heq]
    dsimp only
    by_cases hmem : url ∈ st.visited
    · rw [if_pos hmem]
      dsimp only
      simp only [List.length_cons]
      omega
    · rw [if_neg hmem]
      dsimp only
      have hurlR : url ∈ R := htR url (heq ▸ List.mem_cons_self url rest)
      have hk : (List.filter (fun l => valid l && decide (l ∉ st.visited ++ [url]))
          (links url)).length ≤ (links url).length := List.length_filter_le _ _
      have hD : (links url).length ≤ R.sup fun u => (links u).length :=
        Finset.le_sup (f := fun u => (links u).length) hurlR
      have hcard : st.visited.length + 1 ≤ R.card := by
        have h1 : (st.visited ++ [url]).Nodup := by
          simp [List.nodup_append, hnd, List.disjoint_singleton, hmem]
        have h2 : ∀ x ∈ st.visited ++ [url], x ∈ R := by
          intro x hx
          rcases List.mem_append.mp hx with h | h
          · exact hvR x h
          · exact (List.mem_singleton.mp h) ▸ hurlR
        have := nodup_length_le_card h1 h2
        simpa using this
      simp only [List.length_append, List.length_cons, List.length_nil,
        Nat.zero_add]
      have hsplit : R.card - st.visited.length =
          (R.card - (st.visited.length + 1)) + 1 := by omega
      rw [hsplit, Nat.mul_add, Nat.mul_one]
      generalize hP : ((R.sup fun u => (links u).length) + 1) *
        (R.card - (st.visited.length + 1)) = P
      omega

/-- Helper: starting the loop with fuel at least the crawl measure, the
loop finishes (its guard is false at the result). -/
lemma crawlLoop_done_of_measure {α : Type} [DecidableEq α] {links : α → List α}
    {valid : α → Bool} {base : α} {R : Finset α} {maxPages : Nat}
    (hR : ∀ v, v ∈ R ↔ CrawlReaches links valid base v) :
    ∀ (n : Nat) (st : CrawlState α), crawlMeasure links R st ≤ n →
      CrawlInvS links valid base R st →
      CrawlDone maxPages
        (crawlLoop (fun u => some (links u)) valid maxPages n st) := by
  intro n
  induction n with
  | zero =>
    intro st hm hinv
    show CrawlDone maxPages st
    by_contra hnd
    have hguard : crawlGuard maxPages st = true := by
      cases h : crawlGuard maxPages st with
      | false => exact absurd ((crawlGuard_false_iff _ _).mp h) hnd
      | true => rfl
    have hne := crawlGuard_toVisit_ne hguard
    unfold crawlMeasure at hm
    have : st.toVisit.length = 0 := by omega
    exact hne (List.length_eq_zero.mp this)
  | succ n ih =>
    intro st hm hinv
    rw [crawlLoop]
    split
    · rename_i hguard
      refine ih _ ?_ (crawlStep_invS hR hinv)
      have := crawlStep_measure_lt hinv hguard
      omega
    · rename_i hguard
      exact (crawlGuard_false_iff _ _).mp (Bool.not_eq_true _ ▸ hguard)

/-- C3: on a synthetic link graph whose fetches all succeed, with `R`
the set of URLs reachable from the base along policy-passing links, a
finished crawl visits exactly `min R.card maxPages` pages and its
recorded pages coincide with the visited set; moreover — for an
arbitrary fetch function, failures included — the crawl's fetch
attempts are exactly the visited URLs, each attempted once (the URL is
marked visited before the fetch, a failed fetch is never re-attempted,
and a dequeued already-visited URL is discarded without affecting the
visited count); and fuel equal to the initial crawl measure always
finishes the loop. -/
theorem crawl_visits_min_reachable {α : Type} [DecidableEq α]
    (links : α → List α) (valid : α → Bool) (maxPages : Nat) (base : α)
    (R : Finset α) (fuel : Nat)
    (hR : ∀ v, v ∈ R ↔ CrawlReaches links valid base v)
    (hdone : CrawlDone maxPages
      (crawl (fun u => some (links u)) valid maxPages base fuel)) :
    ((crawl (fun u => some (links u)) valid maxPages base fuel).visited.length =
        min R.card maxPages ∧
      (crawl (fun u => some (links u)) valid maxPages base fuel).crawled =
        (crawl (fun u => some (links u)) valid maxPages base fuel).visited) ∧
    (∀ (g : α → Option (List α)) (f : Nat),
      (crawl g valid maxPages base f).attempts =
        (crawl g valid maxPages base f).visited ∧
      (crawl g valid maxPages base f).attempts.Nodup) ∧
    CrawlDone maxPages (crawl (fun u => some (links u)) valid maxPages base
      (crawlMeasure links R ⟨[base], [], [], []⟩)) := by
  have hinit : CrawlInvS links valid base R ⟨[base], [], [], []⟩ := by
    refine ⟨List.nodup_nil, rfl, rfl, ?_, ?_, ?_, Or.inr (List.mem_singleton_self base)⟩
    · intro v hv
      exact absurd hv (List.not_mem_nil v)
    · intro v hv
      rw [List.mem_singleton.mp hv, hR]
      exact Relation.ReflTransGen.refl
    · intro u hu
      exact absurd hu (List.not_mem_nil u)
  have hattempts : ∀ (g : α → Option (List α)) (f : Nat),
      (crawl g valid maxPages base f).attempts =
        (crawl g valid maxPages base f).visited ∧
      (crawl g valid maxPages base f).attempts.Nodup := by
    intro g f
    have h := crawlLoop_attempts g valid maxPages f ⟨[base], [], [], []⟩
      ⟨rfl, List.nodup_nil⟩
    exact ⟨h.1, h.1 ▸ h.2⟩
  have hceq : crawlLoop (fun u => some (links u)) valid maxPages fuel
      ⟨[base], [], [], []⟩ =
      crawl (fun u => some (links u)) valid maxPages base fuel := rfl
  have hinv := @crawlLoop_invS α _ links valid base R maxPages hR fuel _ hinit
  have hlen := crawlLoop_visited_le (fun u => some (links u)) valid maxPages fuel
    ⟨[base], [], [], []⟩ (Nat.zero_le _)
  rw [hceq] at hinv hlen
  obtain ⟨hnd, _, hcr, hvR, _, _, _⟩ := hinv
  refine ⟨⟨?_, hcr⟩, hattempts, ?_⟩
  · rcases hdone with hdrain | hcap
    · have hcomplete := crawl_drain_complete hR
        (hceq ▸ @crawlLoop_invS α _ links valid base R maxPages hR fuel _ hinit) hdrain
      have hfin : (crawl (fun u => some (links u)) valid maxPages base
          fuel).visited.toFinset = R := by
        ext v
        rw [List.mem_toFinset]
        exact ⟨fun h => hvR v h, fun h => hcomplete v h⟩
      have hcard : (crawl (fun u => some (links u)) valid maxPages base
          fuel).visited.length = R.card := by
        rw [← hfin, List.toFinset_card_of_nodup hnd]
      rw [hcard, min_eq_left (hcard ▸ hlen)]
    · have hlencap : (crawl (fun u => some (links u)) valid maxPages base
          fuel).visited.length = maxPages := le_antisymm hlen hcap
      have hRM : maxPages ≤ R.card := hlencap ▸ nodup_length_le_card hnd hvR
      rw [hlencap, min_eq_right hRM]
  · exact crawlLoop_done_of_measure hR _ _ (le_refl _) hinit

/-- Witness for C3: the one-page graph with no outgoing links, cap 5
and fuel 2: the crawl finishes and visits `min 1 5 = 1` page. -/
theorem crawl_visits_min_reachable_witness :
    (crawl (fun _ : Nat => some ([] : List Nat)) (fun _ => true) 5 0 2).visited.length =
      min ({0} : Finset Nat).card 5 := by
  have hR : ∀ v, v ∈ ({0} : Finset Nat) ↔
      CrawlReaches (fun _ : Nat => []) (fun _ => true) 0 v := by
    intro v
    constructor
    · intro hv
      rw [Finset.mem_singleton] at hv
      rw [hv]
      exact Relation.ReflTransGen.refl
    · intro hr
      induction hr with
      | refl => exact Finset.mem_singleton_self 0
      | tail _ he _ => exact absurd he.1 (List.not_mem_nil _)
  have h := (crawl_visits_min_reachable (fun _ : Nat => []) (fun _ => true) 5 0
    {0} 2 hR (Or.inl rfl)).1.1
  exact h

end AIFirst
